import Mathlib

/-!
Verification development for the `parlayhash` repository
(`include/parlay_hash_new/unordered_map.h` and its benchmark driver).

The header `unordered_map.h` wraps a hash-table engine `parlay_hash`
(declared in `parlay_hash.h`, which is not part of the sources here).
Accordingly this file has two layers:

* definitions translated directly from the code of `unordered_map.h`
  (the `rehash` post-mix, the `IndirectEntries::Entry` tagged-pointer
  operations, the static direct/indirect selection, `max_size`,
  `contains`), and

* a sequential model of the bucket-engine operations `Find`, `Insert`,
  `Upsert`, `Remove`, `size`, modelled from the specification's
  description of the engine (section 4.3 of the design document), since
  `parlay_hash.h` itself is absent.  A table state is the flattened list
  of its (key, value) entries; updates publish new lists exactly as the
  spec describes (no mutation on duplicate insert, cons on fresh insert,
  omit the matched entry on remove, replace the matched value on upsert).
-/

namespace Parlay

/-! ## Sequential model of the bucket engine (modelled from the spec) -/

variable {K V : Type} [DecidableEq K]

/-- Modelled from the spec: `parlay_hash`'s `Find` (`parlay_hash.h` is not
among the sources).  "Walk the list; return the value of the first equal
entry, or absent."  A table state is its flattened entry list. -/
def Find (k : K) : List (K × V) → Option V
  | [] => none
  | e :: rest => if e.1 = k then some e.2 else Find k rest

/-- Modelled from the spec: the list published by `Remove`, which "builds a
new list omitting the matched entry". -/
def eraseKey (k : K) : List (K × V) → List (K × V)
  | [] => []
  | e :: rest => if e.1 = k then rest else e :: eraseKey k rest

/-- Modelled from the spec: the list published by `Upsert` when the key is
present, "a new list with the entry's value replaced". -/
def replaceVal (k : K) (v : V) : List (K × V) → List (K × V)
  | [] => []
  | e :: rest => if e.1 = k then (k, v) :: rest else e :: replaceVal k v rest

/-- Modelled from the spec: `parlay_hash`'s `Insert` as called by
`unordered_map_::Insert`.  "If an entry with key k exists, return the
existing value; do not mutate.  Otherwise, allocate a new list =
cons(new_entry, old_list) ... return absent."  Returns the result paired
with the new table state. -/
def Insert (k : K) (v : V) (l : List (K × V)) : Option V × List (K × V) :=
  match Find k l with
  | some v1 => (some v1, l)
  | none => (none, (k, v) :: l)

/-- Modelled from the spec: `parlay_hash`'s `Upsert` as called by
`unordered_map_::Upsert`.  "Locates the entry; if present, publishes a new
list with the entry's value replaced by f(Some(old)); if absent, publishes
a list containing f(None)"; the prior value is returned. -/
def Upsert (k : K) (f : Option V → V) (l : List (K × V)) : Option V × List (K × V) :=
  match Find k l with
  | some prev => (some prev, replaceVal k (f (some prev)) l)
  | none => (none, (k, f none) :: l)

/-- Modelled from the spec: `parlay_hash`'s `Remove` as called by
`unordered_map_::Remove`.  "If key is in the table it removes the entry and
returns its value, otherwise it does nothing and returns nullopt." -/
def Remove (k : K) (l : List (K × V)) : Option V × List (K × V) :=
  match Find k l with
  | some v => (some v, eraseKey k l)
  | none => (none, l)

/-- From `unordered_map_::contains` (line 203):
`bool contains(const K& k) { return find(k, true_f).has_value();}`. -/
def contains (k : K) (l : List (K × V)) : Bool :=
  (Find k l).isSome

/-- Modelled from the spec: `size()` "scans all buckets summing list
lengths" (`parlay_hash::size` is not among the sources). -/
def size (l : List (K × V)) : Nat :=
  l.length

/-- The keys of a table state are pairwise distinct: spec invariant 2,
"every bucket's published list contains at most one entry per equivalence
class of keys". -/
def NoDupKeys (l : List (K × V)) : Prop :=
  (l.map Prod.fst).Nodup

/-! ### Helper lemmas about the sequential model -/

lemma find_cons_self (k : K) (v : V) (l : List (K × V)) :
    Find k ((k, v) :: l) = some v := by
  simp [Find]

lemma find_cons_ne (k k' : K) (v : V) (l : List (K × V)) (h : k ≠ k') :
    Find k' ((k, v) :: l) = Find k' l := by
  simp [Find, h]

lemma find_eq_none_of_not_mem (k : K) (l : List (K × V))
    (h : k ∉ l.map Prod.fst) : Find k l = none := by
  induction l with
  | nil => rfl
  | cons e rest ih =>
    simp only [List.map_cons, List.mem_cons, not_or] at h
    have hne : e.1 ≠ k := fun hc => h.1 hc.symm
    simp only [Find, if_neg hne]
    exact ih h.2

lemma find_eraseKey_self (k : K) (l : List (K × V)) (h : NoDupKeys l) :
    Find k (eraseKey k l) = none := by
  induction l with
  | nil => rfl
  | cons e rest ih =>
    unfold NoDupKeys at h
    simp only [List.map_cons, List.nodup_cons] at h
    by_cases hk : e.1 = k
    · simp only [eraseKey, if_pos hk]
      exact find_eq_none_of_not_mem k rest (hk ▸ h.1)
    · simp only [eraseKey, if_neg hk, Find, if_neg hk]
      exact ih h.2

lemma find_eraseKey_ne (k k' : K) (l : List (K × V)) (h : k ≠ k') :
    Find k' (eraseKey k l) = Find k' l := by
  induction l with
  | nil => rfl
  | cons e rest ih =>
    by_cases hk : e.1 = k
    · have hne : e.1 ≠ k' := by rw [hk]; exact h
      simp only [eraseKey, if_pos hk, Find, if_neg hne]
    · simp only [eraseKey, if_neg hk, Find]
      by_cases hk' : e.1 = k'
      · simp only [if_pos hk']
      · simp only [if_neg hk']
        exact ih

lemma find_replaceVal_self (k : K) (v : V) (l : List (K × V))
    (h : (Find k l).isSome) : Find k (replaceVal k v l) = some v := by
  induction l with
  | nil => simp [Find] at h
  | cons e rest ih =>
    by_cases hk : e.1 = k
    · simp [replaceVal, hk, Find]
    · simp only [replaceVal, if_neg hk, Find, if_neg hk]
      exact ih (by simpa [Find, hk] using h)

lemma find_replaceVal_ne (k k' : K) (v : V) (l : List (K × V)) (h : k ≠ k') :
    Find k' (replaceVal k v l) = Find k' l := by
  induction l with
  | nil => rfl
  | cons e rest ih =>
    by_cases hk : e.1 = k
    · have hne : e.1 ≠ k' := by rw [hk]; exact h
      simp only [replaceVal, if_pos hk, Find, if_neg h, if_neg hne]
    · simp only [replaceVal, if_neg hk, Find]
      by_cases hk' : e.1 = k'
      · simp only [if_pos hk']
      · simp only [if_neg hk']
        exact ih

/-- An accumulator update function, used to exercise `Upsert` on concrete
inputs (cf. scenario S5 of the design document). -/
def counterF : Option Nat → Nat
  | none => 1
  | some x => x + 1

/-- The table produced by inserting keys 1..10 with values 2*k, in order,
starting from the empty table (scenario S1). -/
def s1Table : List (Nat × Nat) :=
  (List.range 10).foldl (fun l i => (Insert (i + 1) (2 * (i + 1)) l).2) []

/-! ## Claim theorems for the sequential operations -/

/-- C1: `Insert(k, v)` on a table in which `k` is not bound returns the
absent result and afterwards `k` is bound to `v`; on a table in which `k`
is already bound to `v1` it returns `some v1` and leaves the table's
contents completely unchanged. -/
theorem insert_semantics (k : K) (v : V) (l : List (K × V)) :
    (Find k l = none →
      (Insert k v l).1 = none ∧ Find k (Insert k v l).2 = some v) ∧
    (∀ v1, Find k l = some v1 → Insert k v l = (some v1, l)) := by
  constructor
  · intro h
    simp [Insert, h, find_cons_self]
  · intro v1 h
    simp [Insert, h]

theorem insert_semantics_witness :
    (Insert 5 10 ([] : List (Nat × Nat))).1 = none ∧
    Find 5 (Insert 5 10 ([] : List (Nat × Nat))).2 = some 10 ∧
    Insert 5 99 [(5, 10)] = (some 10, [(5, 10)]) := by
  refine ⟨?_, ?_, ?_⟩
  · exact ((insert_semantics 5 10 []).1 (by decide)).1
  · exact ((insert_semantics 5 10 []).1 (by decide)).2
  · exact (insert_semantics 5 99 [(5, 10)]).2 10 (by decide)

/-- C2: `Upsert(k, f)` on a table in which `k` is not bound returns the
absent result and binds `k` to `f(none)`; on a table in which `k` is bound
to `prev` it returns `some prev` and rebinds `k` to `f(some prev)`; no
other key's binding changes. -/
theorem upsert_semantics (k : K) (f : Option V → V) (l : List (K × V)) :
    (Find k l = none →
      (Upsert k f l).1 = none ∧ Find k (Upsert k f l).2 = some (f none)) ∧
    (∀ prev, Find k l = some prev →
      (Upsert k f l).1 = some prev ∧
      Find k (Upsert k f l).2 = some (f (some prev))) ∧
    (∀ k', k ≠ k' → Find k' (Upsert k f l).2 = Find k' l) := by
  refine ⟨?_, ?_, ?_⟩
  · intro h
    simp [Upsert, h, find_cons_self]
  · intro prev h
    refine ⟨by simp [Upsert, h], ?_⟩
    simp only [Upsert, h]
    exact find_replaceVal_self k (f (some prev)) l (by simp [h])
  · intro k' hk
    cases hfind : Find k l with
    | none => simp [Upsert, hfind, find_cons_ne k k' _ l hk]
    | some prev => simp [Upsert, hfind, find_replaceVal_ne k k' _ l hk]

theorem upsert_semantics_witness :
    (Upsert 3 counterF ([] : List (Nat × Nat))).1 = none ∧
    Find 3 (Upsert 3 counterF ([] : List (Nat × Nat))).2 = some 1 ∧
    (Upsert 3 counterF [(3, 1)]).1 = some 1 ∧
    Find 3 (Upsert 3 counterF [(3, 1)]).2 = some 2 ∧
    Find 4 (Upsert 3 counterF [(4, 9)]).2 = Find 4 [(4, 9)] := by
  refine ⟨?_, ?_, ?_, ?_, ?_⟩
  · exact ((upsert_semantics 3 counterF []).1 (by decide)).1
  · exact ((upsert_semantics 3 counterF []).1 (by decide)).2
  · exact ((upsert_semantics 3 counterF [(3, 1)]).2.1 1 (by decide)).1
  · exact ((upsert_semantics 3 counterF [(3, 1)]).2.1 1 (by decide)).2
  · exact (upsert_semantics 3 counterF [(4, 9)]).2.2 4 (by decide)

/-- C3: `Remove(k)` returns `some` of the value `k` was bound to and
unbinds `k` when `k` is present, and returns the absent result leaving the
table unchanged when `k` is absent; after a `Remove(k)`, a second
`Remove(k)` returns the absent result.  The table state satisfies spec
invariant 2 (at most one entry per key). -/
theorem remove_semantics (k : K) (l : List (K × V)) (h : NoDupKeys l) :
    (∀ v, Find k l = some v →
      (Remove k l).1 = some v ∧ Find k (Remove k l).2 = none) ∧
    (Find k l = none → Remove k l = (none, l)) ∧
    (Remove k (Remove k l).2).1 = none := by
  refine ⟨?_, ?_, ?_⟩
  · intro v hv
    refine ⟨by simp [Remove, hv], ?_⟩
    simp only [Remove, hv]
    exact find_eraseKey_self k l h
  · intro h0
    simp [Remove, h0]
  · cases hfind : Find k l with
    | none => simp [Remove, hfind]
    | some v =>
      have h2 : Find k (eraseKey k l) = none := find_eraseKey_self k l h
      simp [Remove, hfind, h2]

theorem remove_semantics_witness :
    (Remove 5 [(1, 2), (5, 10)]).1 = some 10 ∧
    Find 5 (Remove 5 [(1, 2), (5, 10)]).2 = none ∧
    Remove 7 [(1, 2), (5, 10)] = (none, [(1, 2), (5, 10)]) ∧
    (Remove 5 (Remove 5 [(1, 2), (5, 10)]).2).1 = none := by
  refine ⟨?_, ?_, ?_, ?_⟩
  · exact ((remove_semantics 5 [(1, 2), (5, 10)] (by unfold NoDupKeys; decide)).1 10 (by decide)).1
  · exact ((remove_semantics 5 [(1, 2), (5, 10)] (by unfold NoDupKeys; decide)).1 10 (by decide)).2
  · exact (remove_semantics 7 [(1, 2), (5, 10)] (by unfold NoDupKeys; decide)).2.1 (by decide)
  · exact (remove_semantics 5 [(1, 2), (5, 10)] (by unfold NoDupKeys; decide)).2.2

/-- C4 (scenario S1): starting from an empty map, after sequentially
inserting keys 1..10 each with value 2*key: `Find i` returns `some (2*i)`
for every i in 1..10, `Find 0` returns absent, `Remove 5` returns
`some 10`, a subsequent `Find 5` returns absent, and `size` then
returns 9. -/
theorem s1_scenario :
    (∀ i ∈ Finset.Icc 1 10, Find i s1Table = some (2 * i)) ∧
    Find 0 s1Table = none ∧
    (Remove 5 s1Table).1 = some 10 ∧
    Find 5 (Remove 5 s1Table).2 = none ∧
    size (Remove 5 s1Table).2 = 9 := by
  decide

/-- C9: `contains(k)` returns true exactly when a find of `k` on the same
state returns a value. -/
theorem contains_iff_find (k : K) (l : List (K × V)) :
    contains k l = true ↔ ∃ v, Find k l = some v := by
  simp [contains, Option.isSome_iff_exists]

end Parlay

namespace Parlay.Indirect

/-! ## Tagged pointers of `IndirectEntries::Entry` (from the code)

A pointer word is a 64-bit `size_t`; we model words as `Nat`, with bounds
(`< 2^64` for words, `< 2^48` for heap addresses) carried as hypotheses
where the arithmetic depends on them. -/

/-- From `IndirectEntries::Entry::tag_ptr` (lines 91-93):
`(Data*) (((hashv >> 48) << 48) | ((size_t) data))`. -/
def tag_ptr (hashv p : Nat) : Nat :=
  ((hashv >>> 48) <<< 48) ||| p

/-- From `IndirectEntries::Entry::get_ptr` (lines 94-95):
`(Data*) (((size_t) ptr) & ((1ul << 48) - 1))`. -/
def get_ptr (w : Nat) : Nat :=
  w &&& (2 ^ 48 - 1)

lemma get_ptr_tag_ptr (h p : Nat) (hp : p < 2 ^ 48) :
    get_ptr (tag_ptr h p) = p := by
  unfold get_ptr tag_ptr
  apply Nat.eq_of_testBit_eq
  intro i
  rw [Nat.testBit_land, Nat.testBit_lor, Nat.testBit_shiftLeft,
    Nat.testBit_two_pow_sub_one]
  rcases lt_or_ge i 48 with hi | hi
  · simp [hi, Nat.not_le.mpr hi]
  · have hbit : p.testBit i = false :=
      Nat.testBit_lt_two_pow (lt_of_lt_of_le hp (Nat.pow_le_pow_right (by norm_num) hi))
    simp [hi, Nat.not_lt.mpr hi, hbit]

lemma tag_ptr_hi (h p : Nat) (hp : p < 2 ^ 48) :
    tag_ptr h p >>> 48 = h >>> 48 := by
  unfold tag_ptr
  apply Nat.eq_of_testBit_eq
  intro i
  have hbit : p.testBit (48 + i) = false :=
    Nat.testBit_lt_two_pow
      (lt_of_lt_of_le hp (Nat.pow_le_pow_right (by norm_num) (Nat.le_add_right 48 i)))
  simp [Nat.testBit_shiftRight, Nat.testBit_lor, Nat.testBit_shiftLeft, hbit,
    Nat.add_sub_cancel_left, Nat.le_add_right]

/-- C7: for every 64-bit hash `h` and pointer `p` fitting in 48 bits,
`get_ptr (tag_ptr h p) = p`, and the top 16 bits of `tag_ptr h p` equal
the top 16 bits of `h`. -/
theorem tag_ptr_roundtrip (h p : Nat) (_hh : h < 2 ^ 64) (hp : p < 2 ^ 48) :
    get_ptr (tag_ptr h p) = p ∧ tag_ptr h p >>> 48 = h >>> 48 :=
  ⟨get_ptr_tag_ptr h p hp, tag_ptr_hi h p hp⟩

theorem tag_ptr_roundtrip_witness :
    get_ptr (tag_ptr 0xfedc000000001234 42) = 42 ∧
    tag_ptr 0xfedc000000001234 42 >>> 48 = 0xfedc000000001234 >>> 48 :=
  tag_ptr_roundtrip 0xfedc000000001234 42 (by norm_num) (by norm_num)

/-! ## `IndirectEntries::Entry::equal` (from the code)

The C++ probe `Key` is a pair `(const K*, size_t)` of a pointer to the
probed key and its mixed hash; dereferencing the pointer yields the key
itself, so the model carries the key by value.  The heap is a map from
addresses to the stored keys. -/

/-- The probe key `std::pair<const K*, size_t>` of
`IndirectEntries::Entry`: the pointed-to key (by value) and the mixed
hash. -/
structure ProbeKey (K : Type) where
  key : K
  hashv : Nat

/-- From `IndirectEntries::Entry::make_key` (lines 103-104):
`Key(&key, rehash<Hash>{}(Hash{}(key)))`, with `mixHash` standing for the
composition of the hash functor and the conditional `rehash`. -/
def make_key {K : Type} (mixHash : K → Nat) (k : K) : ProbeKey K :=
  ⟨k, mixHash k⟩

/-- From `IndirectEntries::Entry::equal` (lines 98-100):
`((k.second >> 48) == (((size_t) ptr) >> 48)) && KeyEqual{}(DataS::get_key(*get_ptr()), *k.first)`.
`heapKey a` is the key of the heap pair stored at address `a`. -/
def entry_equal {K : Type} (keyEq : K → K → Bool) (heapKey : Nat → K)
    (ptr : Nat) (pk : ProbeKey K) : Bool :=
  (pk.hashv >>> 48 == ptr >>> 48) && keyEq (heapKey (get_ptr ptr)) pk.key

/-- C6: an indirect entry built from stored key `k1` (its word is
`tag_ptr (mixHash k1) addr`, the heap holding `k1` at `addr`), probed with
`make_key k2`, answers `true` exactly when `KeyEqual k1 k2` — assuming
equality is consistent with the hash and the address fits in 48 bits.  In
particular the tag comparison never produces a false negative, and when
the top 16 bits of the two mixed hashes disagree the probe answers `false`
(the stored pair is not consulted). -/
theorem entry_equal_iff {K : Type} (keyEq : K → K → Bool) (mixHash : K → Nat)
    (heapKey : Nat → K) (k1 k2 : K) (addr : Nat)
    (haddr : addr < 2 ^ 48)
    (hheap : heapKey addr = k1)
    (hcons : ∀ a b, keyEq a b = true → mixHash a = mixHash b) :
    (entry_equal keyEq heapKey (tag_ptr (mixHash k1) addr) (make_key mixHash k2) = true
      ↔ keyEq k1 k2 = true) ∧
    (mixHash k2 >>> 48 ≠ mixHash k1 >>> 48 →
      entry_equal keyEq heapKey (tag_ptr (mixHash k1) addr) (make_key mixHash k2) = false) := by
  have hget : get_ptr (tag_ptr (mixHash k1) addr) = addr :=
    get_ptr_tag_ptr (mixHash k1) addr haddr
  have hhi : tag_ptr (mixHash k1) addr >>> 48 = mixHash k1 >>> 48 :=
    tag_ptr_hi (mixHash k1) addr haddr
  refine ⟨⟨?_, ?_⟩, ?_⟩
  · intro h
    simp only [entry_equal, Bool.and_eq_true, hget, hheap] at h
    exact h.2
  · intro h
    have htag : mixHash k1 = mixHash k2 := hcons k1 k2 h
    simp only [entry_equal, make_key]
    rw [hget, hheap, hhi, htag, h]
    simp
  · intro hne
    have hbeq : (mixHash k2 >>> 48 == mixHash k1 >>> 48) = false := by
      simpa using hne
    simp only [entry_equal, make_key]
    rw [hhi, hbeq, Bool.false_and]

theorem entry_equal_iff_witness :
    entry_equal (fun a b : Nat => a == b) (fun _ => 7)
      (tag_ptr 107 3) (make_key (fun a : Nat => a + 100) 7) = true ↔
      ((7 : Nat) == 7) = true :=
  (entry_equal_iff (fun a b : Nat => a == b) (fun a => a + 100)
    (fun _ => 7) 7 7 3 (by norm_num) rfl
    (fun a b h => by
      have hab : a = b := by simpa using h
      simp [hab])).1

end Parlay.Indirect

namespace Parlay.Mix

/-! ## The `rehash` post-mix (from the code, lines 43-52) -/

/-- The multiplicative constant of the non-avalanching `rehash`
(line 46). -/
def rehashConst : Nat := 0xbf58476d1ce4e5b9

/-- The modular inverse of `rehashConst` modulo 2^64 (the constant is odd,
hence invertible). -/
def rehashConstInv : Nat := 0x96de1b173f119089

/-- From the primary `rehash` template (lines 43-48), on 64-bit `size_t`
arithmetic: `x = h * 0xbf58476d1ce4e5b9; return x ^ (x >> 31)`; the
multiplication is modulo 2^64. -/
def rehashMix (h : Nat) : Nat :=
  ((h * rehashConst) % 2 ^ 64) ^^^ (((h * rehashConst) % 2 ^ 64) >>> 31)

/-- From the `rehash` specialization for hash functors declaring
`is_avalanching` (lines 50-52), together with the primary template: the
post-mix applied by the code, as a function of the avalanching capability
flag. -/
def rehash (avalanching : Bool) (h : Nat) : Nat :=
  if avalanching then h else rehashMix h

/-- The xorshift step of `rehashMix`. -/
def xorShift (x : Nat) : Nat := x ^^^ (x >>> 31)

/-- Inverse of the xorshift step on 64-bit words. -/
def unShift (y : Nat) : Nat := y ^^^ (y >>> 31) ^^^ (y >>> 62)

/-- Inverse of `rehashMix` on 64-bit words. -/
def rehashMixInv (y : Nat) : Nat := (unShift y * rehashConstInv) % 2 ^ 64

lemma shiftRight_xor_distrib (a b n : Nat) :
    (a ^^^ b) >>> n = (a >>> n) ^^^ (b >>> n) := by
  apply Nat.eq_of_testBit_eq
  intro i
  simp [Nat.testBit_shiftRight, Nat.testBit_xor]

lemma shiftRight_large_eq_zero (x m n : Nat) (hx : x < 2 ^ m) (hmn : m ≤ n) :
    x >>> n = 0 := by
  rw [Nat.shiftRight_eq_div_pow]
  exact Nat.div_eq_of_lt (lt_of_lt_of_le hx (Nat.pow_le_pow_right (by norm_num) hmn))

lemma xorShift_lt (x : Nat) (hx : x < 2 ^ 64) : xorShift x < 2 ^ 64 := by
  unfold xorShift
  refine Nat.xor_lt_two_pow hx ?_
  rw [Nat.shiftRight_eq_div_pow]
  exact lt_of_le_of_lt (Nat.div_le_self x (2 ^ 31)) hx

lemma unShift_lt (y : Nat) (hy : y < 2 ^ 64) : unShift y < 2 ^ 64 := by
  unfold unShift
  refine Nat.xor_lt_two_pow (Nat.xor_lt_two_pow hy ?_) ?_ <;>
    rw [Nat.shiftRight_eq_div_pow] <;>
    exact lt_of_le_of_lt (Nat.div_le_self y _) hy

lemma unShift_xorShift (x : Nat) (hx : x < 2 ^ 64) :
    unShift (xorShift x) = x := by
  unfold unShift xorShift
  rw [shiftRight_xor_distrib x (x >>> 31) 31,
    shiftRight_xor_distrib x (x >>> 31) 62,
    ← Nat.shiftRight_add x 31 31, ← Nat.shiftRight_add x 31 62]
  norm_num
  rw [shiftRight_large_eq_zero x 64 93 hx (by norm_num), Nat.xor_zero,
    Nat.xor_assoc x (x >>> 31) (x >>> 31 ^^^ x >>> 62),
    Nat.xor_cancel_left (x >>> 31) (x >>> 62),
    Nat.xor_cancel_right (x >>> 62) x]

lemma xorShift_unShift (y : Nat) (hy : y < 2 ^ 64) :
    xorShift (unShift y) = y := by
  unfold unShift xorShift
  rw [shiftRight_xor_distrib (y ^^^ y >>> 31) (y >>> 62) 31,
    shiftRight_xor_distrib y (y >>> 31) 31,
    ← Nat.shiftRight_add y 31 31, ← Nat.shiftRight_add y 62 31]
  norm_num
  rw [shiftRight_large_eq_zero y 64 93 hy (by norm_num), Nat.xor_zero]
  -- ((y ^^^ y31) ^^^ y62) ^^^ (y31 ^^^ y62) = y
  rw [Nat.xor_assoc (y ^^^ y >>> 31) (y >>> 62) (y >>> 31 ^^^ y >>> 62),
    Nat.xor_comm (y >>> 31) (y >>> 62),
    Nat.xor_cancel_left (y >>> 62) (y >>> 31),
    Nat.xor_cancel_right (y >>> 31) y]

lemma const_mul_inv : (rehashConst * rehashConstInv) % 2 ^ 64 = 1 := by
  norm_num [rehashConst, rehashConstInv]

lemma inv_mul_const : (rehashConstInv * rehashConst) % 2 ^ 64 = 1 := by
  rw [Nat.mul_comm]
  exact const_mul_inv

lemma mod_mul_cancel (a b c : Nat) (h : (b * c) % 2 ^ 64 = 1)
    (ha : a < 2 ^ 64) : ((a * b) % 2 ^ 64 * c) % 2 ^ 64 = a := by
  rw [Nat.mod_mul_mod, Nat.mul_assoc, Nat.mul_mod, h, Nat.mul_one,
    Nat.mod_mod, Nat.mod_eq_of_lt ha]

lemma rehashMixInv_left (h : Nat) (hh : h < 2 ^ 64) :
    rehashMixInv (rehashMix h) = h := by
  have hx : (h * rehashConst) % 2 ^ 64 < 2 ^ 64 := Nat.mod_lt _ (by norm_num)
  show (unShift (xorShift ((h * rehashConst) % 2 ^ 64)) * rehashConstInv) % 2 ^ 64 = h
  rw [unShift_xorShift _ hx]
  exact mod_mul_cancel h rehashConst rehashConstInv const_mul_inv hh

lemma rehashMixInv_right (y : Nat) (hy : y < 2 ^ 64) :
    rehashMix (rehashMixInv y) = y := by
  have hu : unShift y < 2 ^ 64 := unShift_lt y hy
  show xorShift ((rehashMixInv y * rehashConst) % 2 ^ 64) = y
  unfold rehashMixInv
  rw [mod_mul_cancel (unShift y) rehashConstInv rehashConst inv_mul_const hu]
  exact xorShift_unShift y hy

/-- C8: the post-mix is the identity when the hash functor declares
`is_avalanching`; otherwise it computes `x = h * 0xbf58476d1ce4e5b9`
(mod 2^64) followed by `x ^^^ (x >>> 31)`, and this composed map is a
bijection on 64-bit words. -/
theorem rehash_identity_and_bijection :
    (∀ h, rehash true h = h) ∧
    (∀ h, rehash false h =
      ((h * rehashConst) % 2 ^ 64) ^^^ (((h * rehashConst) % 2 ^ 64) >>> 31)) ∧
    Set.BijOn (rehash false) (Set.Iio (2 ^ 64)) (Set.Iio (2 ^ 64)) := by
  refine ⟨fun h => rfl, fun h => rfl, ?_, ?_, ?_⟩
  · intro x hx
    simpa [rehash] using xorShift_lt ((x * rehashConst) % 2 ^ 64)
      (Nat.mod_lt _ (by norm_num))
  · intro a ha b hb hab
    have ha' : a < 2 ^ 64 := ha
    have hb' : b < 2 ^ 64 := hb
    have : rehashMixInv (rehashMix a) = rehashMixInv (rehashMix b) := by
      simp only [rehash, Bool.false_eq_true, if_false] at hab
      rw [hab]
    rwa [rehashMixInv_left a ha', rehashMixInv_left b hb'] at this
  · intro y hy
    have hy' : y < 2 ^ 64 := hy
    refine ⟨rehashMixInv y, ?_, ?_⟩
    · show rehashMixInv y < 2 ^ 64
      exact Nat.mod_lt _ (by norm_num)
    · show rehash false (rehashMixInv y) = y
      simpa [rehash] using rehashMixInv_right y hy'

end Parlay.Mix

namespace Parlay.Select

/-! ## Static selection between direct and indirect entries (lines 275-279)
and `max_size` (line 196) -/

/-- The two entry representations of `unordered_map.h`. -/
inductive EntryKind : Type
  | direct
  | indirect
deriving DecidableEq

/-- From `parlay_unordered_map` (lines 275-279): the `std::conditional_t`
selects `DirectEntries` exactly when
`std::is_trivially_copyable_v<K> && std::is_trivially_copyable_v<V>`, as a
function of the two triviality predicates.  No size of K or V enters the
condition. -/
def selectEntryKind (trivK trivV : Bool) : EntryKind :=
  if trivK && trivV then .direct else .indirect

/-- The selection rule as the specification words it: direct exactly when
both types are trivially copyable and the combined pair fits within two
machine words (16 bytes). -/
def selectEntryKindSpec (trivK trivV : Bool) (pairBytes : Nat) : EntryKind :=
  if trivK && trivV && decide (pairBytes ≤ 16) then .direct else .indirect

/-- C5 counterexample: for a trivially copyable pair of 128 bytes (e.g.
`K = V = std::array<long, 8>`, trivially copyable, 64 bytes each) the code
selects the direct representation, while the claim requires the indirect
one because the pair exceeds 16 bytes. -/
theorem select_entry_counterexample :
    selectEntryKind true true = EntryKind.direct ∧
    selectEntryKindSpec true true 128 = EntryKind.indirect := by
  decide

/-- C5 (amended): `parlay_unordered_map` selects the direct (inline) entry
representation exactly when both K and V are trivially copyable; the size
of the combined pair plays no role in the selection. -/
theorem select_entry_iff (trivK trivV : Bool) :
    selectEntryKind trivK trivV = EntryKind.direct ↔
      (trivK = true ∧ trivV = true) := by
  cases trivK <;> cases trivV <;> decide

/-- The value computed in the body of `max_size` (line 196):
`(1ul << 47)/sizeof(Entry)`, as a function of `sizeof(Entry)`. -/
def max_size_body (entrySize : Nat) : Nat := 2 ^ 47 / entrySize

/-- From `unordered_map_::max_size` (line 196): the declared return type is
`bool`, so the `size_t` quotient computed in the body is converted to
`bool` (nonzero becomes `true`). -/
def max_size (entrySize : Nat) : Bool := max_size_body entrySize != 0

/-- C10: `max_size()` returns `true` — numerically 1 — rather than the
element-capacity bound `(2^47)/sizeof(Entry)` computed in its body, for
every entry size a real instantiation can have (at least one byte and
small enough that the bound is at least 2). -/
theorem max_size_returns_true (es : Nat) (h1 : 0 < es) (h2 : es ≤ 2 ^ 46) :
    max_size es = true ∧ (max_size es).toNat = 1 ∧
    (max_size es).toNat ≠ max_size_body es := by
  have hge : 2 ≤ max_size_body es := by
    unfold max_size_body
    calc 2 = 2 ^ 47 / 2 ^ 46 := by norm_num
    _ ≤ 2 ^ 47 / es := Nat.div_le_div_left h2 h1
  have hne : max_size_body es ≠ 0 := by omega
  have htrue : max_size es = true := by simp [max_size, hne]
  refine ⟨htrue, by simp [htrue], ?_⟩
  rw [htrue]
  simp only [Bool.toNat_true]
  omega

theorem max_size_returns_true_witness :
    max_size 8 = true ∧ (max_size 8).toNat = 1 ∧
    (max_size 8).toNat ≠ max_size_body 8 :=
  max_size_returns_true 8 (by norm_num) (by norm_num)

end Parlay.Select
